import Mathlib

/-!
Verification of the in-memory vector store (class FAISSDB in
backend/utils/vector_store.py) and of the ingestion and query controllers
(backend/controllers/file_controller.py, query_controller.py) of the
convo-docs repository, as a shallow embedding.

External collaborators are parameters gathered in a record Env:
the sentence-transformer embedder (encode is deterministic for identical
text and has a fixed output dimension) and the SHA-256 hex digest.  The
FAISS flat L2 index is embedded as an explicit list of integer vectors
(exact coordinates standing in for the float32 coordinates of the source;
the store's logic uses only the ordered-ring structure of the coordinate
type) with exact brute-force squared-L2 search, ascending by distance, ties
going to the earlier stored position, padding unfilled slots of the k
requested with index -1, which is the documented behaviour the source
relies on (it filters hits with index -1).
-/

/-- Metadata as stored: string keys to string values (store_embeddings
normalizes values with str()). -/
abbrev Metadata := List (String × String)

/-- Python values that occur as metadata values in this codebase: strings
and ints. -/
inductive PyVal where
  | s (v : String)
  | i (v : Int)
deriving DecidableEq

/-- Python str() on a metadata value. -/
def PyVal.str : PyVal → String
  | .s v => v
  | .i v => toString v

/-- Python dict lookup d.get(k): the binding for the key, if any. -/
def dictGet? (d : List (String × α)) (k : String) : Option α :=
  (d.find? (fun p => p.1 == k)).map (fun p => p.2)

/-- Python dict assignment d[k] = v: replace the binding in place if the key
is present, otherwise append a new binding (dicts keep insertion order). -/
def dictSet (d : List (String × α)) (k : String) (v : α) :
    List (String × α) :=
  if d.any (fun p => p.1 == k) then
    d.map (fun p => if p.1 == k then (k, v) else p)
  else d ++ [(k, v)]

/-- External collaborators of the store: the embedding dimension of the
sentence-transformer model, its encode function (deterministic for identical
text), and hashlib sha256 hexdigest. -/
structure Env where
  dim : Nat
  embed : String → List ℤ
  sha256hex : String → String

/-- Model of faiss.IndexFlatL2: the flat list of stored vectors, searched by
exact squared L2 distance. -/
structure IndexFlatL2 where
  d : Nat
  vectors : List (List ℤ)
deriving DecidableEq

/-- Number of stored vectors (index.ntotal). -/
def IndexFlatL2.ntotal (ix : IndexFlatL2) : Nat := ix.vectors.length

/-- index.add with a single row: appends the vector. -/
def IndexFlatL2.add (ix : IndexFlatL2) (v : List ℤ) : IndexFlatL2 :=
  { ix with vectors := ix.vectors ++ [v] }

/-- Squared L2 distance, the metric of IndexFlatL2. -/
def sqL2 (u v : List ℤ) : ℤ :=
  (List.zipWith (fun a b => (a - b) * (a - b)) u v).sum

/-- Ranking of search hits (distance, position): ascending distance, ties
broken towards the smaller stored position.  This is a total order, so the
sorted hit list is unique and independent of the sorting algorithm. -/
def HitLE (a b : ℤ × Nat) : Prop :=
  a.1 < b.1 ∨ (a.1 = b.1 ∧ a.2 ≤ b.2)

instance : DecidableRel HitLE := fun a b => by unfold HitLE; infer_instance

instance : IsTotal (ℤ × Nat) HitLE :=
  ⟨fun a b => by
    rcases lt_trichotomy a.1 b.1 with h | h | h
    · exact Or.inl (Or.inl h)
    · rcases Nat.le_total a.2 b.2 with h2 | h2
      · exact Or.inl (Or.inr ⟨h, h2⟩)
      · exact Or.inr (Or.inr ⟨h.symm, h2⟩)
    · exact Or.inr (Or.inl h)⟩

instance : IsTrans (ℤ × Nat) HitLE :=
  ⟨fun a b c hab hbc => by
    rcases hab with h1 | ⟨h1, h1'⟩ <;> rcases hbc with h2 | ⟨h2, h2'⟩
    · exact Or.inl (h1.trans h2)
    · exact Or.inl (h2 ▸ h1)
    · exact Or.inl (h1 ▸ h2)
    · exact Or.inr ⟨h1.trans h2, h1'.trans h2'⟩⟩

/-- Distance reported on padding slots of a search; the store skips padding
by its -1 index before reading the distance, so the value is immaterial. -/
def padDistance : ℤ := 0

/-- Every stored vector paired with its distance to the query and its
position. -/
def IndexFlatL2.scored (ix : IndexFlatL2) (q : List ℤ) : List (ℤ × Nat) :=
  ix.vectors.enum.map (fun p => (sqL2 q p.2, p.1))

/-- All stored positions ranked: ascending distance to the query, ties to
the earlier position. -/
def IndexFlatL2.ranked (ix : IndexFlatL2) (q : List ℤ) : List (ℤ × Nat) :=
  (ix.scored q).insertionSort HitLE

/-- index.search with a single query vector: the k nearest stored vectors as
(distance, position) pairs, ascending; when fewer than k vectors are stored
the remaining slots are padding with position -1. -/
def IndexFlatL2.search (ix : IndexFlatL2) (q : List ℤ) (k : Nat) :
    List (ℤ × Int) :=
  let top := ((ix.ranked q).take k).map (fun p => (p.1, (p.2 : Int)))
  top ++ List.replicate (k - top.length) (padDistance, -1)

/-- State of FAISSDB: the FAISS index plus the parallel bookkeeping
collections (ids and documents in insertion order, metadata keyed by id). -/
structure FAISSDB where
  index : IndexFlatL2
  ids : List String
  documents : List String
  metadata_store : List (String × Metadata)
deriving DecidableEq

/-- FAISSDB.__init__: an empty index of the embedder dimension, empty lists,
empty metadata dict. -/
def FAISSDB.init (env : Env) : FAISSDB :=
  { index := { d := env.dim, vectors := [] }
    ids := []
    documents := []
    metadata_store := [] }

/-- FAISSDB._generate_id_from_text: SHA-256 hexdigest of the text. -/
def FAISSDB.generate_id_from_text (env : Env) (text : String) : String :=
  env.sha256hex text

/-- FAISSDB.generate_embeddings: encode the text with the sentence
transformer. -/
def FAISSDB.generate_embeddings (env : Env) (text : String) : List ℤ :=
  env.embed text

/-- FAISSDB.store_embeddings: embed the text, derive the id from the text,
add the vector to the index, append id and text to the parallel lists, and
write the stringified metadata into the dict under the id. -/
def FAISSDB.store_embeddings (env : Env) (db : FAISSDB) (text : String)
    (metadata : List (String × PyVal)) : FAISSDB :=
  let embedding := FAISSDB.generate_embeddings env text
  let doc_id := FAISSDB.generate_id_from_text env text
  { index := db.index.add embedding
    ids := db.ids ++ [doc_id]
    documents := db.documents ++ [text]
    metadata_store :=
      dictSet db.metadata_store doc_id
        (metadata.map (fun p => (p.1, p.2.str))) }

/-- Result record assembled by query_embeddings. -/
structure QueryResult where
  id : String
  distance : ℤ
  document : String
  metadata : Metadata
deriving DecidableEq

/-- Body of the result loop of query_embeddings for one hit: fetch the id
and the document stored at the position (the except IndexError branch of the
source yields nothing) and the metadata for the id (dict get with default
empty dict). -/
def FAISSDB.lookupResult (db : FAISSDB) (dist : ℤ) (idx : Int) :
    Option QueryResult :=
  match db.ids.get? idx.toNat, db.documents.get? idx.toNat with
  | some doc_id, some document =>
    some { id := doc_id, distance := dist, document := document,
           metadata := (dictGet? db.metadata_store doc_id).getD [] }
  | _, _ => none

/-- Result loop of query_embeddings: skip -1 padding, look every other index
up, collect the valid results in order. -/
def FAISSDB.processHits (db : FAISSDB) (hits : List (ℤ × Int)) :
    List QueryResult :=
  hits.filterMap (fun h => if h.2 = -1 then none else db.lookupResult h.1 h.2)

/-- Body of query_embeddings with the hard-coded n_results as an explicit
argument (the docstring of the source documents an n_results parameter that
the signature does not take): empty answer on an empty index, otherwise
embed the query, search, and collect the valid hits. -/
def FAISSDB.query_with (env : Env) (db : FAISSDB) (query : String)
    (n_results : Nat) : List QueryResult :=
  if db.index.ntotal = 0 then []
  else
    let query_embedding := FAISSDB.generate_embeddings env query
    db.processHits (db.index.search query_embedding n_results)

/-- FAISSDB.query_embeddings(query, file_name): n_results is hard-coded to 5
and the file_name parameter is never read. -/
def FAISSDB.query_embeddings (env : Env) (db : FAISSDB) (query : String)
    (file_name : String) : List QueryResult :=
  FAISSDB.query_with env db query 5

/-- One external ingestion call: the text and metadata handed to
store_embeddings. -/
abbrev StoreCall := String × List (String × PyVal)

/-- A sequence of store_embeddings calls against a fresh FAISSDB. -/
def runStores (env : Env) (calls : List StoreCall) : FAISSDB :=
  calls.foldl (fun db c => FAISSDB.store_embeddings env db c.1 c.2)
    (FAISSDB.init env)

/-- Accumulator pass behind pysplit: acc holds the characters of the word
being read, in reverse. -/
def splitWsAux : List Char → List Char → List String
  | acc, [] => if acc.isEmpty then [] else [String.mk acc.reverse]
  | acc, ch :: cs =>
    if ch.isWhitespace then
      if acc.isEmpty then splitWsAux [] cs
      else String.mk acc.reverse :: splitWsAux [] cs
    else splitWsAux (ch :: acc) cs

/-- Python str.split() with no separator: the maximal runs of
non-whitespace characters of the text, in order (splitting on whitespace
runs produces no empty words). -/
def pysplit (text : String) : List String :=
  splitWsAux [] text.data

/-- Python range(0, stop, step) for step > 0: the multiples of step below
stop. -/
def pyRange (stop step : Nat) : List Nat :=
  (List.range ((stop + step - 1) / step)).map (fun i => i * step)

/-- chunk_text from file_controller: split the text into words and join each
window of chunk_size consecutive words back with single spaces (the source
is a list comprehension over range(0, len(words), chunk_size) taking the
slice words[i : i + chunk_size]). -/
def chunk_text (text : String) (chunk_size : Nat) : List String :=
  let words := pysplit text
  (pyRange words.length chunk_size).map
    (fun i => " ".intercalate ((words.drop i).take chunk_size))

/-- Word windows of width c, stated recursively (the specification-side view
of the chunking): groups of c consecutive words, the last one possibly
shorter. -/
def wordGroups (c : Nat) : List String → List (List String)
  | [] => []
  | w :: ws => (w :: ws.take (c - 1)) :: wordGroups c (ws.drop (c - 1))
termination_by ws => ws.length
decreasing_by simp [List.length_drop]; omega

/-- Environment in which the embedding provider may fail: fails gives the
texts on which encode raises (EmbeddingUnavailable in the specification). -/
structure FEnv where
  env : Env
  fails : String → Bool

/-- store_embeddings under a fallible embedding provider: nothing when
encode raises, otherwise the successful store (the store mutates no state
before its embedding call returns). -/
def FAISSDB.store_embeddings? (fenv : FEnv) (db : FAISSDB) (text : String)
    (metadata : List (String × PyVal)) : Option FAISSDB :=
  if fenv.fails text then none
  else some (FAISSDB.store_embeddings fenv.env db text metadata)

/-- Metadata that upload_file attaches to chunk number idx of a file. -/
def chunkMetadata (filename : String) (idx : Nat) : List (String × PyVal) :=
  [("filename", PyVal.s filename), ("chunk_id", PyVal.i idx)]

/-- Ingestion loop of upload_file from chunk number idx on: store each chunk
in order; the first failure raises out of the loop (the controller catches
the exception and answers 500), leaving the store as it was before the
failing chunk.  Returns the final store and the failing chunk number, if
any. -/
def uploadChunks (fenv : FEnv) (filename : String) :
    FAISSDB → List String → Nat → FAISSDB × Option Nat
  | db, [], _ => (db, none)
  | db, c :: rest, idx =>
    match FAISSDB.store_embeddings? fenv db c (chunkMetadata filename idx) with
    | some db2 => uploadChunks fenv filename db2 rest (idx + 1)
    | none => (db, some idx)

/-- Successful storage of a list of chunks starting at chunk number idx: the
resulting store when every embedding succeeds, nothing otherwise. -/
def storeChunks? (fenv : FEnv) (filename : String) :
    FAISSDB → List String → Nat → Option FAISSDB
  | db, [], _ => some db
  | db, c :: rest, idx =>
    match FAISSDB.store_embeddings? fenv db c (chunkMetadata filename idx) with
    | some db2 => storeChunks? fenv filename db2 rest (idx + 1)
    | none => none

/-- Reachable well-formed states: the three collections are aligned, every
stored vector is the embedding of the document at its position, and every
stored id is the fingerprint of the document at its position. -/
def FAISSDB.WF (env : Env) (db : FAISSDB) : Prop :=
  db.ids.length = db.index.ntotal ∧
  db.documents.length = db.index.ntotal ∧
  ∀ i, i < db.index.ntotal →
    db.index.vectors.getD i [] = env.embed (db.documents.getD i "") ∧
    db.ids.getD i "" = env.sha256hex (db.documents.getD i "")

instance (env : Env) (db : FAISSDB) : Decidable (FAISSDB.WF env db) := by
  unfold FAISSDB.WF
  infer_instance

/-- Concrete environment for counterexamples: a deterministic embedder that
maps every text to the same one-dimensional vector, with the identity map
as fingerprint function. -/
def cenv : Env := { dim := 1, embed := fun _ => [0], sha256hex := fun t => t }

/-- Concrete environment for witnesses: a deterministic embedder mapping
each text to its length as a one-dimensional vector (injective on texts of
distinct lengths), with the identity map as fingerprint function. -/
def qenv : Env :=
  { dim := 1, embed := fun t => [(t.length : ℤ)], sha256hex := fun t => t }

/-- Concrete state: the text a stored once with metadata m = 1 under cenv. -/
def dbA1 : FAISSDB :=
  FAISSDB.store_embeddings cenv (FAISSDB.init cenv) "a" [("m", PyVal.s "1")]

/-- Concrete state: the text a stored a second time, now with metadata
m = 2. -/
def dbA2 : FAISSDB :=
  FAISSDB.store_embeddings cenv dbA1 "a" [("m", PyVal.s "2")]

/-- Record that query_embeddings assembles for stored position i when the
lookup succeeds: the id and document at the position and the metadata dict
entry under that id. -/
def FAISSDB.recordAt (db : FAISSDB) (d : ℤ) (i : Nat) : QueryResult :=
  { id := db.ids.getD i "", distance := d,
    document := db.documents.getD i "",
    metadata := (dictGet? db.metadata_store (db.ids.getD i "")).getD [] }

/-- Concrete state with six stored entries of pairwise distinct embeddings
under qenv. -/
def db6 : FAISSDB :=
  runStores qenv
    [("a", []), ("bb", []), ("ccc", []), ("dddd", []), ("eeeee", []),
      ("ffffff", [])]

/-- Concrete state with two stored entries of distinct embeddings under
qenv. -/
def db2c : FAISSDB := runStores qenv [("a", []), ("bb", [])]

/-- Concrete state under cenv: the texts a then b, which the (deterministic)
constant embedder maps to the same vector. -/
def dbAB : FAISSDB :=
  FAISSDB.store_embeddings cenv
    (FAISSDB.store_embeddings cenv (FAISSDB.init cenv) "a" []) "b" []

/-- Fallible environment for the C8 witness: the embedding provider raises
exactly on the text cc. -/
def fenvW : FEnv := { env := qenv, fails := fun t => t == "cc" }

/-- Store state after successfully ingesting only the first chunk b. -/
def dbW : FAISSDB :=
  FAISSDB.store_embeddings qenv (FAISSDB.init qenv) "b" (chunkMetadata "f.txt" 0)

/-!
Helper lemmas.
-/

/-- Alignment of the three parallel collections of a store state. -/
def FAISSDB.Aligned (db : FAISSDB) : Prop :=
  db.index.ntotal = db.documents.length ∧
  db.documents.length = db.ids.length

lemma FAISSDB.aligned_init (env : Env) : (FAISSDB.init env).Aligned :=
  ⟨rfl, rfl⟩

lemma FAISSDB.aligned_store (env : Env) (db : FAISSDB) (t : String)
    (m : List (String × PyVal)) (h : db.Aligned) :
    (FAISSDB.store_embeddings env db t m).Aligned := by
  obtain ⟨h1, h2⟩ := h
  simp only [FAISSDB.Aligned, FAISSDB.store_embeddings, IndexFlatL2.add,
    IndexFlatL2.ntotal, List.length_append, List.length_cons,
    List.length_nil] at *
  omega

lemma FAISSDB.aligned_foldl (env : Env) (calls : List StoreCall)
    (db : FAISSDB) (h : db.Aligned) :
    (calls.foldl (fun db c => FAISSDB.store_embeddings env db c.1 c.2)
      db).Aligned := by
  induction calls generalizing db with
  | nil => exact h
  | cons c rest ih => exact ih _ (FAISSDB.aligned_store env db c.1 c.2 h)

lemma find?_dictSubst (k k' : String) (v : α) (h : k ≠ k') :
    ∀ d : List (String × α),
      List.find? (fun p => p.1 == k')
          (d.map (fun p => if p.1 == k then (k, v) else p))
        = List.find? (fun p => p.1 == k') d
  | [] => rfl
  | p :: d => by
    by_cases hpk : p.1 = k
    · have e1 : (if p.1 == k then (k, v) else p) = (k, v) := by simp [hpk]
      rw [List.map_cons, e1, List.find?_cons_of_neg _ (by simp [h]),
        List.find?_cons_of_neg _ (by simp [hpk, h])]
      exact find?_dictSubst k k' v h d
    · have e1 : (if p.1 == k then (k, v) else p) = p := by simp [hpk]
      rw [List.map_cons, e1]
      by_cases hpk2 : p.1 = k'
      · rw [List.find?_cons_of_pos _ (by simp [hpk2]),
          List.find?_cons_of_pos _ (by simp [hpk2])]
      · rw [List.find?_cons_of_neg _ (by simp [hpk2]),
          List.find?_cons_of_neg _ (by simp [hpk2])]
        exact find?_dictSubst k k' v h d

lemma dictGet?_dictSet_ne (d : List (String × α)) (k k' : String) (v : α)
    (h : k ≠ k') : dictGet? (dictSet d k v) k' = dictGet? d k' := by
  unfold dictSet dictGet?
  split
  · rw [find?_dictSubst k k' v h d]
  · rw [List.find?_append]
    simp [h]

lemma ranked_sorted (ix : IndexFlatL2) (q : List ℤ) :
    List.Pairwise HitLE (ix.ranked q) :=
  List.sorted_insertionSort HitLE (ix.scored q)

lemma ranked_perm (ix : IndexFlatL2) (q : List ℤ) :
    List.Perm (ix.ranked q) (ix.scored q) :=
  List.perm_insertionSort HitLE (ix.scored q)

lemma length_scored (ix : IndexFlatL2) (q : List ℤ) :
    (ix.scored q).length = ix.ntotal := by
  simp [IndexFlatL2.scored, IndexFlatL2.ntotal]

lemma length_ranked (ix : IndexFlatL2) (q : List ℤ) :
    (ix.ranked q).length = ix.ntotal := by
  rw [(ranked_perm ix q).length_eq, length_scored]

lemma scored_getElem? (ix : IndexFlatL2) (q : List ℤ) (i : Nat) :
    (ix.scored q)[i]? = (ix.vectors[i]?).map (fun v => (sqL2 q v, i)) := by
  simp only [IndexFlatL2.scored, List.enum, List.getElem?_map,
    List.getElem?_enumFrom, Option.map_map]
  cases ix.vectors[i]? <;> simp [Function.comp]

lemma mem_scored (ix : IndexFlatL2) (q : List ℤ) (p : ℤ × Nat) :
    p ∈ ix.scored q ↔ ∃ v, ix.vectors[p.2]? = some v ∧ p.1 = sqL2 q v := by
  obtain ⟨pd, pi⟩ := p
  constructor
  · intro hp
    obtain ⟨i, hi⟩ := List.mem_iff_getElem?.1 hp
    rw [scored_getElem?] at hi
    obtain ⟨v, hv, he⟩ := Option.map_eq_some'.1 hi
    injection he with he1 he2
    subst he2
    subst he1
    exact ⟨v, hv, rfl⟩
  · rintro ⟨v, hv, hd⟩
    subst hd
    refine List.mem_iff_getElem?.2 ⟨pi, ?_⟩
    rw [scored_getElem?, hv]
    rfl

lemma mem_ranked (ix : IndexFlatL2) (q : List ℤ) (p : ℤ × Nat) :
    p ∈ ix.ranked q ↔ p ∈ ix.scored q :=
  (ranked_perm ix q).mem_iff

lemma filterMap_eq_map_of_some {α β : Type} {f : α → Option β} {g : α → β} :
    ∀ {l : List α}, (∀ x ∈ l, f x = some (g x)) → l.filterMap f = l.map g
  | [], _ => rfl
  | a :: l, h => by
    rw [List.filterMap_cons_some (h a (List.mem_cons_self a l)), List.map_cons]
    exact congrArg _
      (filterMap_eq_map_of_some (fun x hx => h x (List.mem_cons_of_mem a hx)))

lemma lookupResult_eq (db : FAISSDB) (d : ℤ) (i : Nat)
    (h1 : i < db.ids.length) (h2 : i < db.documents.length) :
    db.lookupResult d (i : Int) = some (db.recordAt d i) := by
  obtain ⟨x, hx⟩ : ∃ x, db.ids[i]? = some x :=
    ⟨_, List.getElem?_eq_getElem h1⟩
  obtain ⟨y, hy⟩ : ∃ y, db.documents[i]? = some y :=
    ⟨_, List.getElem?_eq_getElem h2⟩
  have hxD : db.ids.getD i "" = x := by
    rw [List.getD_eq_getElem?_getD, hx]
    rfl
  have hyD : db.documents.getD i "" = y := by
    rw [List.getD_eq_getElem?_getD, hy]
    rfl
  have ht : ((i : Int)).toNat = i := rfl
  unfold FAISSDB.lookupResult FAISSDB.recordAt
  rw [ht, List.get?_eq_getElem?, List.get?_eq_getElem?, hx, hy, hxD, hyD]

lemma hitResult_distance (db : FAISSDB) (h : ℤ × Int) (x : QueryResult)
    (hx : (if h.2 = -1 then none else db.lookupResult h.1 h.2) = some x) :
    x.distance = h.1 := by
  by_cases hm : h.2 = -1
  · rw [if_pos hm] at hx
    exact absurd hx (by simp)
  · rw [if_neg hm] at hx
    unfold FAISSDB.lookupResult at hx
    split at hx
    · cases Option.some.inj hx
      rfl
    · exact absurd hx (by simp)

lemma query_with_eq_map (env : Env) (db : FAISSDB) (q : String) (k : Nat)
    (hids : db.ids.length = db.index.ntotal)
    (hdocs : db.documents.length = db.index.ntotal) :
    FAISSDB.query_with env db q k
      = ((db.index.ranked (env.embed q)).take k).map
          (fun p => db.recordAt p.1 p.2) := by
  unfold FAISSDB.query_with
  by_cases h0 : db.index.ntotal = 0
  · rw [if_pos h0]
    have hr : db.index.ranked (FAISSDB.generate_embeddings env q) = [] :=
      List.eq_nil_of_length_eq_zero (by rw [length_ranked, h0])
    rw [show FAISSDB.generate_embeddings env q = env.embed q from rfl] at hr
    rw [hr]
    simp
  · rw [if_neg h0]
    unfold FAISSDB.processHits IndexFlatL2.search
    rw [show FAISSDB.generate_embeddings env q = env.embed q from rfl]
    rw [List.filterMap_append]
    have hpad : ∀ m, (List.replicate m ((padDistance, -1) : ℤ × Int)).filterMap
        (fun h => if h.2 = -1 then none else db.lookupResult h.1 h.2)
          = [] := by
      intro m
      induction m with
      | zero => rfl
      | succ m ih => simp [List.replicate_succ, ih]
    rw [hpad, List.append_nil, List.filterMap_map]
    apply filterMap_eq_map_of_some
    intro p hp
    have hmem : p ∈ db.index.ranked (env.embed q) :=
      (List.take_sublist _ _).subset hp
    obtain ⟨v, hv, _⟩ :=
      (mem_scored _ _ _).1 ((mem_ranked _ _ _).1 hmem)
    have hlt : p.2 < db.index.ntotal := by
      have := List.getElem?_eq_some.1 hv
      exact this.1
    have hne : ¬((p.1, (p.2 : Int)).2 = -1) := by
      simp only []
      omega
    show (if ((p.1, (p.2 : Int)) : ℤ × Int).2 = -1 then none
        else db.lookupResult (p.1, ((p.2 : Int))).1 (p.1, ((p.2 : Int))).2)
      = some (db.recordAt p.1 p.2)
    rw [if_neg hne]
    exact lookupResult_eq db p.1 p.2 (by omega) (by omega)

lemma sqL2_nonneg : ∀ u v : List ℤ, 0 ≤ sqL2 u v
  | [], _ => le_refl 0
  | _ :: _, [] => le_refl 0
  | a :: u, b :: v => by
    have ih := sqL2_nonneg u v
    unfold sqL2 at *
    rw [List.zipWith_cons_cons, List.sum_cons]
    have hsq : 0 ≤ (a - b) * (a - b) := mul_self_nonneg _
    omega

lemma sqL2_self : ∀ v : List ℤ, sqL2 v v = 0
  | [] => rfl
  | a :: v => by
    have ih := sqL2_self v
    unfold sqL2 at *
    rw [List.zipWith_cons_cons, List.sum_cons, ih]
    simp [sub_self]

lemma scored_map_positions (ix : IndexFlatL2) (q : List ℤ)
    (l2 : List String) (h : l2.length = ix.ntotal) :
    (ix.scored q).map (fun p => l2.getD p.2 "") = l2 := by
  apply List.ext_getElem?
  intro i
  rw [List.getElem?_map, scored_getElem?]
  cases hv : ix.vectors[i]? with
  | none =>
    have hlen : ix.ntotal ≤ i := List.getElem?_eq_none_iff.1 hv
    rw [Option.map_none', Option.map_none']
    symm
    exact List.getElem?_eq_none (by omega)
  | some v =>
    have hi : i < l2.length := by
      have := (List.getElem?_eq_some.1 hv).1
      have hnt : i < ix.ntotal := this
      omega
    rw [Option.map_some', Option.map_some', List.getElem?_eq_getElem hi,
      List.getD_eq_getElem?_getD, List.getElem?_eq_getElem hi]
    rfl

/-!
Claim theorems.
-/

/-- C1: after every sequence of store_embeddings calls on a fresh FAISSDB
the vector count of the index, the length of the documents list, and the
length of the ids list agree; and every single store_embeddings call grows
each of the three collections by exactly one entry. -/
theorem store_embeddings_alignment (env : Env) (calls : List StoreCall)
    (db : FAISSDB) (text : String) (metadata : List (String × PyVal)) :
    ((runStores env calls).index.ntotal
        = (runStores env calls).documents.length ∧
      (runStores env calls).documents.length
        = (runStores env calls).ids.length) ∧
    (FAISSDB.store_embeddings env db text metadata).index.ntotal
        = db.index.ntotal + 1 ∧
    (FAISSDB.store_embeddings env db text metadata).documents.length
        = db.documents.length + 1 ∧
    (FAISSDB.store_embeddings env db text metadata).ids.length
        = db.ids.length + 1 := by
  refine ⟨FAISSDB.aligned_foldl env calls _ (FAISSDB.aligned_init env),
    ?_, ?_, ?_⟩ <;>
    simp [FAISSDB.store_embeddings, IndexFlatL2.add, IndexFlatL2.ntotal]

/-- C6: querying a store that holds zero entries returns the empty list for
every query text, for every file_name argument. -/
theorem query_embeddings_empty (env : Env) (db : FAISSDB) (q fn : String)
    (h : db.index.ntotal = 0) :
    FAISSDB.query_embeddings env db q fn = [] := by
  simp [FAISSDB.query_embeddings, FAISSDB.query_with, h]

/-- Witness for C6 at the fresh store. -/
theorem query_embeddings_empty_witness :
    (FAISSDB.init cenv).index.ntotal = 0 ∧
    FAISSDB.query_embeddings cenv (FAISSDB.init cenv) "lazy dog" "f.txt"
      = [] :=
  ⟨rfl, query_embeddings_empty cenv (FAISSDB.init cenv) "lazy dog" "f.txt" rfl⟩

/-- C2 counterexample: storing the same text a second time with different
metadata changes the metadata that query_embeddings reports for the already
stored position 0 (the metadata dict is keyed by the content fingerprint,
so the second store overwrites the entry the first one wrote). -/
theorem query_metadata_changes_after_duplicate_store :
    ((FAISSDB.query_embeddings cenv dbA1 "a" "f").map (fun r => r.metadata)
      = [[("m", "1")]]) ∧
    ((FAISSDB.query_embeddings cenv dbA2 "a" "f").map (fun r => r.metadata)
      = [[("m", "2")], [("m", "2")]]) := by
  constructor <;> decide

/-- C2 (amended): a later store_embeddings call, with any text and any
metadata, changes neither the id nor the document text observed for an
already stored position: the ids and documents lists at the position are
unchanged, and the record that query_embeddings assembles for the position
keeps the same id, document and distance; the metadata of that record is
also unchanged whenever the fingerprint of the newly stored text differs
from the id at the position (when the fingerprints coincide it can change,
see the counterexample). -/
theorem store_preserves_prior_lookups (env : Env) (db : FAISSDB)
    (text : String) (metadata : List (String × PyVal)) (dist : ℤ) (p : Int)
    (hp : p.toNat < db.ids.length) (hp2 : p.toNat < db.documents.length) :
    (FAISSDB.store_embeddings env db text metadata).ids.get? p.toNat
        = db.ids.get? p.toNat ∧
    (FAISSDB.store_embeddings env db text metadata).documents.get? p.toNat
        = db.documents.get? p.toNat ∧
    ((FAISSDB.store_embeddings env db text metadata).lookupResult dist p).map
        (fun r => (r.id, r.document, r.distance))
      = (db.lookupResult dist p).map
          (fun r => (r.id, r.document, r.distance)) ∧
    ((∀ i, db.ids.get? p.toNat = some i → env.sha256hex text ≠ i) →
      (FAISSDB.store_embeddings env db text metadata).lookupResult dist p
        = db.lookupResult dist p) := by
  have hids : (FAISSDB.store_embeddings env db text metadata).ids.get? p.toNat
      = db.ids.get? p.toNat := by
    simp only [FAISSDB.store_embeddings, List.get?_eq_getElem?]
    exact List.getElem?_append_left hp
  have hdocs :
      (FAISSDB.store_embeddings env db text metadata).documents.get? p.toNat
        = db.documents.get? p.toNat := by
    simp only [FAISSDB.store_embeddings, List.get?_eq_getElem?]
    exact List.getElem?_append_left hp2
  refine ⟨hids, hdocs, ?_, ?_⟩
  · unfold FAISSDB.lookupResult
    rw [hids, hdocs]
    cases hi : db.ids.get? p.toNat with
    | none => rfl
    | some doc_id =>
      cases hd : db.documents.get? p.toNat with
      | none => rfl
      | some document => rfl
  · intro hid
    unfold FAISSDB.lookupResult
    rw [hids, hdocs]
    cases hi : db.ids.get? p.toNat with
    | none => rfl
    | some doc_id =>
      cases hd : db.documents.get? p.toNat with
      | none => rfl
      | some document =>
        have hne : env.sha256hex text ≠ doc_id := hid _ hi
        simp only [FAISSDB.store_embeddings, FAISSDB.generate_id_from_text]
        rw [dictGet?_dictSet_ne _ _ _ _ hne]

/-- Witness for the amended C2: storing a fresh text after dbA1 changes
nothing about what is reported for position 0. -/
theorem store_preserves_prior_lookups_witness :
    ((0 : Int).toNat < dbA1.ids.length ∧
      (0 : Int).toNat < dbA1.documents.length) ∧
    ((FAISSDB.store_embeddings cenv dbA1 "bb" []).ids.get? (0 : Int).toNat
        = dbA1.ids.get? (0 : Int).toNat ∧
      (FAISSDB.store_embeddings cenv dbA1 "bb"
          []).documents.get? (0 : Int).toNat
        = dbA1.documents.get? (0 : Int).toNat ∧
      ((FAISSDB.store_embeddings cenv dbA1 "bb" []).lookupResult 0 0).map
          (fun r => (r.id, r.document, r.distance))
        = (dbA1.lookupResult 0 0).map
            (fun r => (r.id, r.document, r.distance)) ∧
      ((∀ i, dbA1.ids.get? (0 : Int).toNat = some i →
          cenv.sha256hex "bb" ≠ i) →
        (FAISSDB.store_embeddings cenv dbA1 "bb" []).lookupResult 0 0
          = dbA1.lookupResult 0 0)) :=
  ⟨⟨by decide, by decide⟩,
    store_preserves_prior_lookups cenv dbA1 "bb" [] 0 0 (by decide)
      (by decide)⟩

lemma pyRange_nil (step : Nat) : pyRange 0 step = [] := by
  unfold pyRange
  rcases Nat.eq_zero_or_pos step with h | h
  · subst h; rfl
  · rw [Nat.div_eq_of_lt (by omega)]
    rfl

lemma pyRange_pos (stop c : Nat) (hc : 0 < c) (hs : 0 < stop) :
    pyRange stop c = 0 :: (pyRange (stop - c) c).map (fun i => i + c) := by
  unfold pyRange
  have e2 : (stop + c - 1) / c = (stop - 1) / c + 1 := by
    have e1 : stop + c - 1 = (stop - 1) + c := by omega
    rw [e1, Nat.add_div_right _ hc]
  have e3 : (stop - c + c - 1) / c = (stop - 1) / c := by
    rcases le_or_lt stop c with h | h
    · have h1 : stop - c = 0 := by omega
      rw [h1]
      have d1 : (0 + c - 1) / c = 0 := Nat.div_eq_of_lt (by omega)
      have d2 : (stop - 1) / c = 0 := Nat.div_eq_of_lt (by omega)
      rw [d1, d2]
    · have h1 : stop - c + c - 1 = (stop - c - 1) + c := by omega
      have h2 : stop - 1 = (stop - c - 1) + c := by omega
      rw [h1, h2]
  rw [e2, e3, List.range_succ_eq_map]
  simp only [List.map_cons, List.map_map, Nat.zero_mul]
  congr 1
  apply List.map_congr_left
  intro x _
  simp [Function.comp, Nat.succ_mul]

lemma pyRange_slices {α : Type} (c : Nat) (hc : 0 < c) (f : List String → α) :
    ∀ ws : List String,
      (pyRange ws.length c).map (fun i => f ((ws.drop i).take c))
        = (wordGroups c ws).map f
  | [] => by
    rw [List.length_nil, pyRange_nil, wordGroups]
    rfl
  | w :: ws => by
    have hdc : (w :: ws).drop c = ws.drop (c - 1) := by
      conv_lhs => rw [show c = (c - 1) + 1 by omega]
      rw [List.drop_succ_cons]
    rw [pyRange_pos _ c hc (by simp), wordGroups, List.map_cons,
      List.map_cons, List.map_map]
    congr 1
    · have e : ((w :: ws).drop 0).take c = w :: ws.take (c - 1) := by
        rw [List.drop_zero]
        conv_lhs => rw [show c = (c - 1) + 1 by omega]
        rw [List.take_succ_cons]
      rw [e]
    · have harg : (w :: ws).length - c = (ws.drop (c - 1)).length := by
        rw [List.length_drop, List.length_cons]
        omega
      rw [harg]
      have hfun : ∀ i ∈ pyRange (ws.drop (c - 1)).length c,
          ((fun i => f (((w :: ws).drop i).take c)) ∘ (fun i => i + c)) i
            = f (((ws.drop (c - 1)).drop i).take c) := by
        intro i _
        simp only [Function.comp_apply]
        rw [Nat.add_comm i c, ← List.drop_drop, hdc]
      calc ((pyRange (ws.drop (c - 1)).length c).map
              ((fun i => f (((w :: ws).drop i).take c)) ∘ (fun i => i + c)))
          = (pyRange (ws.drop (c - 1)).length c).map
              (fun i => f (((ws.drop (c - 1)).drop i).take c)) :=
            List.map_congr_left hfun
        _ = (wordGroups c (ws.drop (c - 1))).map f :=
            pyRange_slices c hc f (ws.drop (c - 1))
termination_by ws => ws.length
decreasing_by simp [List.length_drop]; omega

lemma wordGroups_flatten (c : Nat) (hc : 0 < c) :
    ∀ ws : List String, (wordGroups c ws).flatten = ws
  | [] => by simp [wordGroups]
  | w :: ws => by
    rw [wordGroups, List.flatten_cons,
      wordGroups_flatten c hc (ws.drop (c - 1))]
    simp [List.cons_append, List.take_append_drop]
termination_by ws => ws.length
decreasing_by simp [List.length_drop]; omega

lemma wordGroups_windows (c : Nat) (hc : 0 < c) :
    ∀ ws : List String, ∀ g ∈ wordGroups c ws, g.length ≤ c ∧ g ≠ []
  | [] => by simp [wordGroups]
  | w :: ws => by
    intro g hg
    rw [wordGroups] at hg
    rcases List.mem_cons.1 hg with rfl | hg
    · refine ⟨?_, by simp⟩
      have := List.length_take (c - 1) ws
      simp only [List.length_cons]
      omega
    · exact wordGroups_windows c hc (ws.drop (c - 1)) g hg
termination_by ws => ws.length
decreasing_by simp [List.length_drop]; omega

lemma wordGroups_dropLast (c : Nat) (hc : 0 < c) :
    ∀ ws : List String, ∀ g ∈ (wordGroups c ws).dropLast, g.length = c
  | [] => by simp [wordGroups]
  | w :: ws => by
    intro g hg
    rw [wordGroups] at hg
    cases hrest : wordGroups c (ws.drop (c - 1)) with
    | nil =>
      rw [hrest] at hg
      simp at hg
    | cons r rs =>
      rw [hrest, List.dropLast_cons₂] at hg
      rcases List.mem_cons.1 hg with rfl | hg2
      · have hne : ws.drop (c - 1) ≠ [] := by
          intro hnil
          rw [hnil] at hrest
          simp [wordGroups] at hrest
        have hlen : c - 1 < ws.length := by
          by_contra hb
          push_neg at hb
          exact hne (List.drop_eq_nil_of_le hb)
        simp only [List.length_cons, List.length_take]
        omega
      · rw [← hrest] at hg2
        exact wordGroups_dropLast c hc (ws.drop (c - 1)) g hg2
termination_by ws => ws.length
decreasing_by simp [List.length_drop]; omega

/-- C7: chunk_text with a positive chunk size is exactly: split the text
into its word sequence, group the words into consecutive non-overlapping
windows of chunk_size words (the last possibly shorter), and join every
window back with single spaces; the windows concatenate to the original
word sequence, every window is nonempty with at most chunk_size words, and
every window except possibly the last has exactly chunk_size words. -/
theorem chunk_text_spec (text : String) (c : Nat) (hc : 0 < c) :
    chunk_text text c
        = (wordGroups c (pysplit text)).map (fun g => " ".intercalate g) ∧
    (wordGroups c (pysplit text)).flatten = pysplit text ∧
    (∀ g ∈ (wordGroups c (pysplit text)).dropLast, g.length = c) ∧
    (∀ g ∈ wordGroups c (pysplit text), g.length ≤ c ∧ g ≠ []) :=
  ⟨pyRange_slices c hc _ (pysplit text),
    wordGroups_flatten c hc (pysplit text),
    wordGroups_dropLast c hc (pysplit text),
    wordGroups_windows c hc (pysplit text)⟩

/-- Witness for C7 at chunk size 2 on a five-word text, together with the
concrete evaluation of the chunking. -/
theorem chunk_text_spec_witness :
    (0 < 2 ∧
      chunk_text "the quick brown fox jumps" 2
        = ["the quick", "brown fox", "jumps"]) ∧
    (chunk_text "the quick brown fox jumps" 2
        = (wordGroups 2 (pysplit "the quick brown fox jumps")).map
            (fun g => " ".intercalate g) ∧
      (wordGroups 2 (pysplit "the quick brown fox jumps")).flatten
        = pysplit "the quick brown fox jumps" ∧
      (∀ g ∈ (wordGroups 2 (pysplit "the quick brown fox jumps")).dropLast,
        g.length = 2) ∧
      (∀ g ∈ wordGroups 2 (pysplit "the quick brown fox jumps"),
        g.length ≤ 2 ∧ g ≠ [])) :=
  ⟨⟨by decide, by decide⟩,
    chunk_text_spec "the quick brown fox jumps" 2 (by decide)⟩

/-- C3 evidence: the caller cannot control the result count.  The second
parameter of query_embeddings is a file name that is never read and the
search size is hard-coded to 5, so with six stored entries every call
returns exactly 5 results, whatever second argument is passed. -/
theorem query_embeddings_result_count_fixed_at_five :
    db6.index.ntotal = 6 ∧
    (FAISSDB.query_embeddings qenv db6 "a" "6").length = 5 ∧
    (FAISSDB.query_embeddings qenv db6 "a" "1000000").length = 5 := by
  refine ⟨rfl, ?_, ?_⟩ <;> decide

lemma uploadChunks_fail (fenv : FEnv) (fn : String) :
    ∀ (chunks : List String) (db db' : FAISSDB) (i j : Nat),
      uploadChunks fenv fn db chunks i = (db', some j) →
      i ≤ j ∧ storeChunks? fenv fn db (chunks.take (j - i)) i = some db' ∧
        ∃ cj, chunks.get? (j - i) = some cj ∧ fenv.fails cj = true
  | [], db, db', i, j => by simp [uploadChunks]
  | c :: rest, db, db', i, j => by
    rw [uploadChunks]
    cases hs : FAISSDB.store_embeddings? fenv db c (chunkMetadata fn i) with
    | none =>
      intro h
      obtain ⟨rfl, h2⟩ := Prod.mk.injEq .. ▸ h
      obtain rfl : i = j := by simpa using h2
      have hfail : fenv.fails c = true := by
        by_contra hb
        simp [FAISSDB.store_embeddings?, hb] at hs
      refine ⟨le_refl i, by simp [storeChunks?], c, by simp, hfail⟩
    | some db2 =>
      intro h
      obtain ⟨hij, hst, cj, hcj, hfail⟩ :=
        uploadChunks_fail fenv fn rest db2 db' (i + 1) j h
      refine ⟨by omega, ?_, cj, ?_, hfail⟩
      · have e : j - i = (j - (i + 1)) + 1 := by omega
        rw [e, List.take_succ_cons, storeChunks?, hs]
        exact hst
      · have e : j - i = (j - (i + 1)) + 1 := by omega
        rw [e]
        simpa using hcj

/-- C8: if the ingestion loop of upload_file fails at chunk number j, the
resulting store state is exactly the state obtained by successfully storing
the first j chunks (with their upload metadata), the embedding provider
indeed fails on chunk j, and no previously appended chunk is rolled back. -/
theorem upload_partial_failure (fenv : FEnv) (fn : String)
    (chunks : List String) (db db' : FAISSDB) (j : Nat)
    (h : uploadChunks fenv fn db chunks 0 = (db', some j)) :
    storeChunks? fenv fn db (chunks.take j) 0 = some db' ∧
      ∃ cj, chunks.get? j = some cj ∧ fenv.fails cj = true := by
  have hh := uploadChunks_fail fenv fn chunks db db' 0 j h
  exact ⟨by simpa using hh.2.1, by simpa using hh.2.2⟩

/-- Witness for C8: ingesting the chunks b, cc, d fails on chunk number 1
and leaves exactly chunk 0 stored. -/
theorem upload_partial_failure_witness :
    uploadChunks fenvW "f.txt" (FAISSDB.init qenv) ["b", "cc", "d"] 0
        = (dbW, some 1) ∧
    (storeChunks? fenvW "f.txt" (FAISSDB.init qenv)
          (["b", "cc", "d"].take 1) 0 = some dbW ∧
      ∃ cj, ["b", "cc", "d"].get? 1 = some cj ∧ fenvW.fails cj = true) :=
  ⟨by decide,
    upload_partial_failure fenvW "f.txt" ["b", "cc", "d"]
      (FAISSDB.init qenv) dbW 1 (by decide)⟩

/-- C4: against every store state and every query, the distances of the
result list of query_embeddings are non-decreasing in list order, and the
valid hits of every underlying index search are ordered by ascending
distance with ties broken towards the earlier stored position. -/
theorem query_ranking_monotone (env : Env) (db : FAISSDB) (q fn : String) :
    List.Pairwise (fun a b : QueryResult => a.distance ≤ b.distance)
      (FAISSDB.query_embeddings env db q fn) ∧
    ∀ (v : List ℤ) (k : Nat),
      List.Pairwise (fun a b : ℤ × Int =>
          a.1 < b.1 ∨ (a.1 = b.1 ∧ a.2 ≤ b.2))
        ((db.index.search v k).filter (fun h => h.2 != -1)) := by
  constructor
  · simp only [FAISSDB.query_embeddings, FAISSDB.query_with]
    split
    · exact List.Pairwise.nil
    · rw [FAISSDB.processHits, List.pairwise_filterMap]
      unfold IndexFlatL2.search
      refine List.pairwise_append.2 ⟨?_, ?_, ?_⟩
      · refine List.pairwise_map.2 ?_
        refine ((ranked_sorted db.index _).take).imp ?_
        intro p p' hle x hx x' hx'
        have hdx := hitResult_distance db _ x (Option.mem_def.1 hx)
        have hdx' := hitResult_distance db _ x' (Option.mem_def.1 hx')
        rw [hdx, hdx']
        rcases hle with h | ⟨h, _⟩
        · exact le_of_lt h
        · exact le_of_eq h
      · apply List.pairwise_of_forall_mem_list
        intro a ha b hb x hx x' hx'
        have hb' := List.eq_of_mem_replicate hb
        rw [hb'] at hx'
        simp at hx'
      · intro a _ b hb x hx x' hx'
        have hb' := List.eq_of_mem_replicate hb
        rw [hb'] at hx'
        simp at hx'
  · intro v k
    unfold IndexFlatL2.search
    rw [List.filter_append]
    have h1 : List.filter (fun h => h.2 != -1)
          (((db.index.ranked v).take k).map (fun p => (p.1, (p.2 : Int))))
        = ((db.index.ranked v).take k).map (fun p => (p.1, (p.2 : Int))) := by
      apply List.filter_eq_self.2
      intro a ha
      obtain ⟨p, _, rfl⟩ := List.mem_map.1 ha
      simp only [bne_iff_ne, ne_eq]
      omega
    have h2 : (List.replicate
            (k - (((db.index.ranked v).take k).map
              (fun p => (p.1, (p.2 : Int)))).length)
            ((padDistance, -1) : ℤ × Int)).filter (fun h => h.2 != -1)
        = [] := by
      apply List.filter_eq_nil_iff.2
      intro a ha
      rw [List.eq_of_mem_replicate ha]
      simp
    rw [h1, h2, List.append_nil]
    refine List.pairwise_map.2 ?_
    refine ((ranked_sorted db.index v).take).imp ?_
    intro p p' hle
    rcases hle with h | ⟨h, h2'⟩
    · exact Or.inl h
    · exact Or.inr ⟨h, by exact_mod_cast Nat.cast_le.2 h2'⟩

/-- C5: whenever the search size k exceeds the number n > 0 of stored
entries of an aligned store, the query returns exactly n results — one per
stored entry, the documents of the results being a permutation of the
stored documents — rather than failing or returning padding entries;
query_embeddings is exactly this query at the hard-coded k = 5. -/
theorem query_clamps_to_stored_count (env : Env) (db : FAISSDB)
    (q fn : String) (k : Nat)
    (hids : db.ids.length = db.index.ntotal)
    (hdocs : db.documents.length = db.index.ntotal)
    (h0 : 0 < db.index.ntotal) (hk : db.index.ntotal < k) :
    (FAISSDB.query_with env db q k).length = db.index.ntotal ∧
    List.Perm ((FAISSDB.query_with env db q k).map (fun r => r.document))
      db.documents ∧
    FAISSDB.query_embeddings env db q fn = FAISSDB.query_with env db q 5 := by
  have hqm := query_with_eq_map env db q k hids hdocs
  have htake : (db.index.ranked (env.embed q)).take k
      = db.index.ranked (env.embed q) :=
    List.take_of_length_le (by rw [length_ranked]; omega)
  refine ⟨?_, ?_, rfl⟩
  · rw [hqm, htake, List.length_map, length_ranked]
  · rw [hqm, htake, List.map_map]
    show List.Perm
      ((db.index.ranked (env.embed q)).map
        (fun p : ℤ × Nat => db.documents.getD p.2 ""))
      db.documents
    have hperm := List.Perm.map (fun p : ℤ × Nat => db.documents.getD p.2 "")
      (ranked_perm db.index (env.embed q))
    rw [scored_map_positions db.index (env.embed q) db.documents hdocs]
      at hperm
    exact hperm

/-- Witness for C5 on a two-entry store with search size 7. -/
theorem query_clamps_to_stored_count_witness :
    (db2c.ids.length = db2c.index.ntotal ∧
      db2c.documents.length = db2c.index.ntotal ∧
      0 < db2c.index.ntotal ∧ db2c.index.ntotal < 7) ∧
    ((FAISSDB.query_with qenv db2c "a" 7).length = db2c.index.ntotal ∧
      List.Perm
        ((FAISSDB.query_with qenv db2c "a" 7).map (fun r => r.document))
        db2c.documents ∧
      FAISSDB.query_embeddings qenv db2c "a" "f"
        = FAISSDB.query_with qenv db2c "a" 5) :=
  ⟨⟨by decide, by decide, by decide, by decide⟩,
    query_clamps_to_stored_count qenv db2c "a" "f" 7 (by decide) (by decide)
      (by decide) (by decide)⟩

/-- C9 counterexample: with a deterministic embedding provider that maps
the two distinct stored texts a and b to the same vector, the stored chunk
b queried with its own exact text is not the first result: the earlier
position with the same embedding wins the tie, so the first result is the
chunk a. -/
theorem self_retrieval_fails_on_embedding_ties :
    "b" ∈ dbAB.documents ∧
    (FAISSDB.query_embeddings cenv dbAB "b" "f").map (fun r => r.document)
      = ["a", "b"] ∧
    (FAISSDB.query_embeddings cenv dbAB "b" "f").map (fun r => r.id)
      = ["a", "b"] :=
  ⟨by decide, by decide, by decide⟩

/-- C9 (amended): on a well-formed store, querying with the exact text of a
stored chunk returns a nonempty list whose first result has distance
exactly 0; provided additionally that no stored text distinct from the
queried one shares its embedding, the first result is the queried chunk
itself: its document is the chunk text and its id the chunk fingerprint. -/
theorem self_retrieval (env : Env) (db : FAISSDB) (t fn : String)
    (hwf : FAISSDB.WF env db) (ht : t ∈ db.documents)
    (hcoll : ∀ d ∈ db.documents,
      sqL2 (env.embed t) (env.embed d) = 0 → d = t) :
    ∃ r rest, FAISSDB.query_embeddings env db t fn = r :: rest ∧
      r.distance = 0 ∧ r.document = t ∧ r.id = env.sha256hex t := by
  obtain ⟨hids, hdocs, hvec⟩ := hwf
  obtain ⟨p, hp, hpt⟩ := List.mem_iff_getElem.1 ht
  have hpn : p < db.index.ntotal := by omega
  have hplen : p < db.index.vectors.length := hpn
  have hvp : db.index.vectors[p]? = some (env.embed t) := by
    have h1 := (hvec p hpn).1
    have hgd : db.index.vectors.getD p [] = db.index.vectors[p] := by
      rw [List.getD_eq_getElem?_getD, List.getElem?_eq_getElem hplen]
      rfl
    have hgd2 : db.documents.getD p "" = t := by
      rw [List.getD_eq_getElem?_getD, List.getElem?_eq_getElem hp, hpt]
      rfl
    rw [List.getElem?_eq_getElem hplen, ← hgd, h1, hgd2]
  have hpe : ((0 : ℤ), p) ∈ db.index.scored (env.embed t) := by
    refine (mem_scored _ _ _).2 ⟨env.embed t, hvp, ?_⟩
    rw [sqL2_self]
  have hlen : (db.index.ranked (env.embed t)).length = db.index.ntotal :=
    length_ranked _ _
  obtain ⟨hd, tl, hrk⟩ :
      ∃ hd tl, db.index.ranked (env.embed t) = hd :: tl := by
    cases hr : db.index.ranked (env.embed t) with
    | nil => rw [hr] at hlen; simp at hlen; omega
    | cons a l => exact ⟨a, l, rfl⟩
  have hmem_pe : ((0 : ℤ), p) ∈ db.index.ranked (env.embed t) :=
    (mem_ranked _ _ _).2 hpe
  have hsort := ranked_sorted db.index (env.embed t)
  rw [hrk] at hsort hmem_pe
  have hle : HitLE hd ((0 : ℤ), p) := by
    rcases List.mem_cons.1 hmem_pe with he | hm
    · rw [← he]
      exact Or.inr ⟨rfl, le_refl _⟩
    · exact (List.pairwise_cons.1 hsort).1 _ hm
  have hhd_mem : hd ∈ db.index.scored (env.embed t) := by
    have hh : hd ∈ db.index.ranked (env.embed t) := by
      rw [hrk]
      exact List.mem_cons_self _ _
    exact (mem_ranked _ _ _).1 hh
  obtain ⟨v, hv, hdist⟩ := (mem_scored _ _ _).1 hhd_mem
  obtain ⟨hhdn, _⟩ := List.getElem?_eq_some.1 hv
  have hnn : 0 ≤ hd.1 := by
    rw [hdist]
    exact sqL2_nonneg _ _
  have hd0 : hd.1 = 0 := by
    rcases hle with h | ⟨h, _⟩
    · have hneg : hd.1 < 0 := h
      omega
    · exact h
  have hvd : v = env.embed (db.documents.getD hd.2 "") := by
    have h1 := (hvec hd.2 hhdn).1
    have hgv : db.index.vectors.getD hd.2 [] = v := by
      rw [List.getD_eq_getElem?_getD, hv]
      rfl
    rw [← hgv, h1]
  have hdoc_mem : db.documents.getD hd.2 "" ∈ db.documents := by
    have hnt : db.index.ntotal = db.index.vectors.length := rfl
    have hlt : hd.2 < db.documents.length := by omega
    rw [List.getD_eq_getElem?_getD, List.getElem?_eq_getElem hlt]
    exact List.getElem_mem hlt
  have hdoct : db.documents.getD hd.2 "" = t := by
    apply hcoll _ hdoc_mem
    rw [← hvd, ← hdist]
    exact hd0
  have hid : db.ids.getD hd.2 "" = env.sha256hex t := by
    rw [(hvec hd.2 hhdn).2, hdoct]
  have hqm := query_with_eq_map env db t 5 hids hdocs
  refine ⟨db.recordAt hd.1 hd.2,
    (tl.take 4).map (fun p => db.recordAt p.1 p.2), ?_, hd0, hdoct, hid⟩
  show FAISSDB.query_with env db t 5 = _
  rw [hqm, hrk, show (5 : Nat) = 4 + 1 from rfl, List.take_succ_cons,
    List.map_cons]

/-- Witness for the amended C9 on a two-entry store whose embeddings are
pairwise distinct, querying the stored text a. -/
theorem self_retrieval_witness :
    (FAISSDB.WF qenv db2c ∧ "a" ∈ db2c.documents ∧
      (∀ d ∈ db2c.documents,
        sqL2 (qenv.embed "a") (qenv.embed d) = 0 → d = "a")) ∧
    (∃ r rest, FAISSDB.query_embeddings qenv db2c "a" "f" = r :: rest ∧
      r.distance = 0 ∧ r.document = "a" ∧ r.id = qenv.sha256hex "a") :=
  ⟨⟨by decide, by decide, by decide⟩,
    self_retrieval qenv db2c "a" "f" (by decide) (by decide) (by decide)⟩

/-- C10: the result of query_embeddings depends only on the query text and
the store state, never on the file_name argument. -/
theorem query_embeddings_ignores_file_name (env : Env) (db : FAISSDB)
    (q f1 f2 : String) :
    FAISSDB.query_embeddings env db q f1
      = FAISSDB.query_embeddings env db q f2 := rfl
